import Mathlib

/-!
Verification development for the aw_watcher_procrastination repository.

The repository contains two categorizer implementations:
* a flat, longest-match categorizer in `activity_categorizer.py` at the repository
  root, used by `procrastination_monitor.py` (modelled in namespace `Monitor`);
* a nested-dictionary categorizer in
  `src/aw_watcher_procrastination/activity_categorizer.py`, used by
  `src/aw_watcher_procrastination/event_processor.py` (modelled in namespace `Pkg`).

Strings are modelled as `List Char`; time instants and spans as integer
microseconds (Python timedelta is an exact microsecond count); percentages as `ℚ`.
-/

/-- The three activity categories, as in both `activity_categorizer.py` variants. -/
inductive ActivityCategory where
  | PROCRASTINATING : ActivityCategory
  | UNCLEAR : ActivityCategory
  | PRODUCTIVE : ActivityCategory
deriving DecidableEq, Repr

/-- The three pattern dimensions, `RuleType` in the root `activity_categorizer.py`. -/
inductive RuleType where
  | APP : RuleType
  | URL : RuleType
  | TITLE : RuleType
deriving DecidableEq, Repr

/-- Python `str.lower`, character by character. -/
def lowerList (s : List Char) : List Char := s.map Char.toLower

/-- Helper for substring containment: `p` is a leading run of `t`. -/
def beginsWith : List Char → List Char → Bool
  | [], _ => true
  | _ :: _, [] => false
  | a :: as, b :: bs => a == b && beginsWith as bs

/-- Python substring containment `p in t`: `p` occurs as a contiguous run of `t`. -/
def containsRun (p : List Char) : List Char → Bool
  | [] => p.isEmpty
  | c :: ts => beginsWith p (c :: ts) || containsRun p ts

namespace Monitor

/-- `ActivityRule` dataclass from the root `activity_categorizer.py`. -/
structure ActivityRule where
  pattern : List Char
  category : ActivityCategory
  rule_type : RuleType
deriving DecidableEq, Repr

/-- Loop body of `ActivityCategorizer._find_best_match`: walk the rules keeping the
current best match and its pattern length, replacing it only on a strictly longer
matching pattern of the requested dimension. -/
def find_aux (t : List Char) (rt : RuleType) :
    List ActivityRule → Option ActivityRule × Nat → Option ActivityRule × Nat
  | [], acc => acc
  | r :: rs, acc =>
    if r.rule_type = rt ∧ containsRun r.pattern t = true ∧ acc.2 < r.pattern.length then
      find_aux t rt rs (some r, r.pattern.length)
    else
      find_aux t rt rs acc

/-- `ActivityCategorizer._find_best_match` from the root `activity_categorizer.py`:
lowercases the text and returns the first rule of the requested dimension whose
(lowercased, as stored) pattern is contained in the text and is strictly longer
than every previously seen match. The rules list is `self.rules.values()` in
insertion order. -/
def find_best_match (rules : List ActivityRule) (text : List Char) (rt : RuleType) :
    Option ActivityRule :=
  (find_aux (lowerList text) rt rules (none, 0)).1

/-- `ActivityCategorizer.categorize_activity` from the root `activity_categorizer.py`:
URL dimension first (only when url is nonempty), then title, then app name;
the first dimension producing a match decides the category, otherwise UNCLEAR. -/
def categorize_activity (rules : List ActivityRule) (app url title : List Char) :
    ActivityCategory :=
  match (if url ≠ [] then find_best_match rules url RuleType.URL else none) with
  | some r => r.category
  | none =>
    match (if title ≠ [] then find_best_match rules title RuleType.TITLE else none) with
    | some r => r.category
    | none =>
      match find_best_match rules app RuleType.APP with
      | some r => r.category
      | none => ActivityCategory.UNCLEAR

/-- `ActivityCategorizer.add_rule` from the root `activity_categorizer.py`:
`self.rules[pattern.lower()] = ActivityRule(pattern.lower(), category, rule_type)`.
The rules dictionary is keyed by the lowercased pattern alone; modelled as an
association list with Python dict semantics (an existing key keeps its position
and gets the new value, a new key is appended). -/
def add_rule (rules : List (List Char × ActivityRule)) (pattern : List Char)
    (category : ActivityCategory) (rt : RuleType) : List (List Char × ActivityRule) :=
  let key := lowerList pattern
  let nr : ActivityRule := ⟨key, category, rt⟩
  if rules.any (fun kv => kv.1 = key) then
    rules.map (fun kv => if kv.1 = key then (key, nr) else kv)
  else
    rules ++ [(key, nr)]

/-- `self.rules.values()` of the rules dictionary, in insertion order. -/
def rules_values (rules : List (List Char × ActivityRule)) : List ActivityRule :=
  rules.map Prod.snd

end Monitor

namespace Monitor

/-- A rule of the requested dimension whose stored pattern occurs in the
(already lowercased) text: the two match conditions of `_find_best_match`. -/
def RuleHits (t : List Char) (rt : RuleType) (r : ActivityRule) : Prop :=
  r.rule_type = rt ∧ containsRun r.pattern t = true

instance (t : List Char) (rt : RuleType) (r : ActivityRule) :
    Decidable (RuleHits t rt r) := by
  unfold RuleHits; infer_instance

theorem find_aux_snd_le (t : List Char) (rt : RuleType) :
    ∀ (rules : List ActivityRule) (acc : Option ActivityRule × Nat),
      acc.2 ≤ (find_aux t rt rules acc).2 := by
  intro rules
  induction rules with
  | nil => intro acc; simp [find_aux]
  | cons r rs ih =>
    intro acc
    by_cases h : r.rule_type = rt ∧ containsRun r.pattern t = true ∧ acc.2 < r.pattern.length
    · simp only [find_aux, if_pos h]
      exact le_trans (le_of_lt h.2.2) (ih (some r, r.pattern.length))
    · simp only [find_aux, if_neg h]
      exact ih acc

theorem find_aux_ge (t : List Char) (rt : RuleType) :
    ∀ (rules : List ActivityRule) (acc : Option ActivityRule × Nat) (r : ActivityRule),
      r ∈ rules → RuleHits t rt r → r.pattern.length ≤ (find_aux t rt rules acc).2 := by
  intro rules
  induction rules with
  | nil => intro acc r hmem; exact absurd hmem (List.not_mem_nil r)
  | cons a rs ih =>
    intro acc r hmem hr
    rcases List.mem_cons.mp hmem with heq | hmem'
    · subst heq
      by_cases h : r.rule_type = rt ∧ containsRun r.pattern t = true ∧ acc.2 < r.pattern.length
      · simp only [find_aux, if_pos h]
        exact le_trans (le_refl _) (find_aux_snd_le t rt rs (some r, r.pattern.length))
      · simp only [find_aux, if_neg h]
        have hle : r.pattern.length ≤ acc.2 := by
          rcases Nat.lt_or_ge acc.2 r.pattern.length with hlt | hge
          · exact absurd ⟨hr.1, hr.2, hlt⟩ h
          · exact hge
        exact le_trans hle (find_aux_snd_le t rt rs acc)
    · by_cases h : a.rule_type = rt ∧ containsRun a.pattern t = true ∧ acc.2 < a.pattern.length
      · simp only [find_aux, if_pos h]
        exact ih _ r hmem' hr
      · simp only [find_aux, if_neg h]
        exact ih _ r hmem' hr

theorem find_aux_cases (t : List Char) (rt : RuleType) :
    ∀ (rules : List ActivityRule) (acc : Option ActivityRule × Nat),
      find_aux t rt rules acc = acc ∨
        ∃ r, r ∈ rules ∧ RuleHits t rt r ∧
          find_aux t rt rules acc = (some r, r.pattern.length) := by
  intro rules
  induction rules with
  | nil => intro acc; left; rfl
  | cons a rs ih =>
    intro acc
    by_cases h : a.rule_type = rt ∧ containsRun a.pattern t = true ∧ acc.2 < a.pattern.length
    · simp only [find_aux, if_pos h]
      rcases ih (some a, a.pattern.length) with heq | ⟨r, hmem, hr, heq⟩
      · right
        exact ⟨a, List.mem_cons_self a rs, ⟨h.1, h.2.1⟩, heq⟩
      · right
        exact ⟨r, List.mem_cons_of_mem a hmem, hr, heq⟩
    · simp only [find_aux, if_neg h]
      rcases ih acc with heq | ⟨r, hmem, hr, heq⟩
      · left; exact heq
      · right; exact ⟨r, List.mem_cons_of_mem a hmem, hr, heq⟩

/-- If a matching rule of the dimension is strictly longer than every other
matching rule, `_find_best_match` returns exactly that rule. -/
theorem find_best_match_eq_of_unique_longest (rules : List ActivityRule)
    (text : List Char) (rt : RuleType) (r : ActivityRule)
    (hmem : r ∈ rules) (hhit : RuleHits (lowerList text) rt r)
    (hpos : 0 < r.pattern.length)
    (hmax : ∀ r' ∈ rules, RuleHits (lowerList text) rt r' →
        r' = r ∨ r'.pattern.length < r.pattern.length) :
    find_best_match rules text rt = some r := by
  unfold find_best_match
  have hge := find_aux_ge (lowerList text) rt rules (none, 0) r hmem hhit
  rcases find_aux_cases (lowerList text) rt rules (none, 0) with heq | ⟨r'', hmem'', hr'', heq⟩
  · rw [heq] at hge
    exact absurd (Nat.lt_of_lt_of_le hpos hge) (Nat.lt_irrefl 0)
  · rw [heq] at hge
    rcases hmax r'' hmem'' hr'' with he | hlt
    · rw [heq, he]
    · exact absurd (Nat.lt_of_le_of_lt hge hlt) (Nat.lt_irrefl _)

theorem find_aux_fixed (t : List Char) (rt : RuleType) :
    ∀ (rules : List ActivityRule),
      (∀ r ∈ rules, RuleHits t rt r → r.pattern.length = 0) →
      find_aux t rt rules (none, 0) = (none, 0) := by
  intro rules
  induction rules with
  | nil => intro _; rfl
  | cons a rs ih =>
    intro hall
    have hcond : ¬(a.rule_type = rt ∧ containsRun a.pattern t = true ∧
        (none (α := ActivityRule), 0).2 < a.pattern.length) := by
      rintro ⟨h1, h2, h3⟩
      have := hall a (List.mem_cons_self a rs) ⟨h1, h2⟩
      simp [this] at h3
    simp only [find_aux, if_neg hcond]
    exact ih (fun r hmem hr => hall r (List.mem_cons_of_mem a hmem) hr)

/-- `_find_best_match` returns no rule exactly when every matching rule of the
dimension has an empty pattern (the strict length comparison never fires). -/
theorem find_best_match_eq_none_iff (rules : List ActivityRule)
    (text : List Char) (rt : RuleType) :
    find_best_match rules text rt = none ↔
      ∀ r ∈ rules, RuleHits (lowerList text) rt r → r.pattern.length = 0 := by
  constructor
  · intro hnone r hmem hr
    unfold find_best_match at hnone
    rcases find_aux_cases (lowerList text) rt rules (none, 0) with heq | ⟨r'', _, _, heq⟩
    · have hge := find_aux_ge (lowerList text) rt rules (none, 0) r hmem hr
      rw [heq] at hge
      exact Nat.le_zero.mp hge
    · rw [heq] at hnone
      exact absurd hnone (by simp)
  · intro hall
    unfold find_best_match
    rw [find_aux_fixed (lowerList text) rt rules hall]

theorem find_best_match_none_of_perm (rules rules' : List ActivityRule)
    (text : List Char) (rt : RuleType) (hperm : rules.Perm rules')
    (hnone : find_best_match rules text rt = none) :
    find_best_match rules' text rt = none := by
  rw [find_best_match_eq_none_iff] at hnone ⊢
  intro r hmem hr
  exact hnone r (hperm.mem_iff.mpr hmem) hr

/-- The text `categorize_activity` offers to dimension `rt`. -/
def text_of (rt : RuleType) (app url title : List Char) : List Char :=
  match rt with
  | RuleType.APP => app
  | RuleType.URL => url
  | RuleType.TITLE => title

/-- Dimensions evaluated before `rt` in `categorize_activity` produce no match:
either their text is empty (the guard skips them) or no rule fires. -/
def prior_dims_clear (rules : List ActivityRule) (app url title : List Char)
    (rt : RuleType) : Prop :=
  match rt with
  | RuleType.URL => True
  | RuleType.TITLE => url = [] ∨ find_best_match rules url RuleType.URL = none
  | RuleType.APP =>
      (url = [] ∨ find_best_match rules url RuleType.URL = none) ∧
      (title = [] ∨ find_best_match rules title RuleType.TITLE = none)

theorem categorize_eq_of_dim (rules : List ActivityRule) (app url title : List Char)
    (rt : RuleType) (r : ActivityRule)
    (hclear : prior_dims_clear rules app url title rt)
    (htext : text_of rt app url title ≠ [])
    (hfind : find_best_match rules (text_of rt app url title) rt = some r) :
    categorize_activity rules app url title = r.category := by
  cases rt with
  | URL =>
    unfold categorize_activity
    simp only [text_of] at htext hfind
    rw [if_pos htext, hfind]
  | TITLE =>
    unfold categorize_activity
    simp only [text_of] at htext hfind
    simp only [prior_dims_clear] at hclear
    have hurl : (if url ≠ [] then find_best_match rules url RuleType.URL else none) = none := by
      rcases hclear with he | hn
      · rw [if_neg (by simp [he])]
      · split
        · exact hn
        · rfl
    rw [hurl, if_pos htext, hfind]
  | APP =>
    unfold categorize_activity
    simp only [text_of] at htext hfind
    simp only [prior_dims_clear] at hclear
    have hurl : (if url ≠ [] then find_best_match rules url RuleType.URL else none) = none := by
      rcases hclear.1 with he | hn
      · rw [if_neg (by simp [he])]
      · split
        · exact hn
        · rfl
    have htitle : (if title ≠ [] then find_best_match rules title RuleType.TITLE else none) = none := by
      rcases hclear.2 with he | hn
      · rw [if_neg (by simp [he])]
      · split
        · exact hn
        · rfl
    rw [hurl, htitle, hfind]

end Monitor

namespace Monitor

/-- Rule set used to witness claim C1: two URL rules, the longer one procrastinating. -/
def c1Rules : List ActivityRule :=
  [⟨"edd".toList, ActivityCategory.PRODUCTIVE, RuleType.URL⟩,
   ⟨"reddit.com".toList, ActivityCategory.PROCRASTINATING, RuleType.URL⟩]

/-- The same rule set in the opposite insertion order. -/
def c1RulesRev : List ActivityRule :=
  [⟨"reddit.com".toList, ActivityCategory.PROCRASTINATING, RuleType.URL⟩,
   ⟨"edd".toList, ActivityCategory.PRODUCTIVE, RuleType.URL⟩]

end Monitor

/-- C1: in the longest-match categorizer (root `activity_categorizer.py`), whenever a
matching pattern of the evaluated dimension is strictly longer than every other
matching pattern of that dimension, `categorize_activity` returns the category of
that longest matching pattern, and the result is the same for any permutation of
the rule list, i.e. regardless of insertion order. -/
theorem c1_longest_pattern_wins (rules rules' : List Monitor.ActivityRule)
    (hperm : rules.Perm rules') (app url title : List Char) (rt : RuleType)
    (r : Monitor.ActivityRule)
    (hmem : r ∈ rules)
    (hhit : Monitor.RuleHits (lowerList (Monitor.text_of rt app url title)) rt r)
    (hpos : 0 < r.pattern.length)
    (hmax : ∀ r' ∈ rules,
        Monitor.RuleHits (lowerList (Monitor.text_of rt app url title)) rt r' →
        r' = r ∨ r'.pattern.length < r.pattern.length)
    (htext : Monitor.text_of rt app url title ≠ [])
    (hclear : Monitor.prior_dims_clear rules app url title rt) :
    Monitor.categorize_activity rules app url title = r.category ∧
    Monitor.categorize_activity rules' app url title = r.category := by
  have hfind : Monitor.find_best_match rules (Monitor.text_of rt app url title) rt = some r :=
    Monitor.find_best_match_eq_of_unique_longest rules _ rt r hmem hhit hpos hmax
  have hfind' : Monitor.find_best_match rules' (Monitor.text_of rt app url title) rt = some r :=
    Monitor.find_best_match_eq_of_unique_longest rules' _ rt r (hperm.mem_iff.mp hmem) hhit hpos
      (fun r' hm' hh' => hmax r' (hperm.mem_iff.mpr hm') hh')
  have hclear' : Monitor.prior_dims_clear rules' app url title rt := by
    cases rt with
    | URL => trivial
    | TITLE =>
      rcases hclear with he | hn
      · exact Or.inl he
      · exact Or.inr (Monitor.find_best_match_none_of_perm rules rules' url RuleType.URL hperm hn)
    | APP =>
      constructor
      · rcases hclear.1 with he | hn
        · exact Or.inl he
        · exact Or.inr (Monitor.find_best_match_none_of_perm rules rules' url RuleType.URL hperm hn)
      · rcases hclear.2 with he | hn
        · exact Or.inl he
        · exact Or.inr (Monitor.find_best_match_none_of_perm rules rules' title RuleType.TITLE hperm hn)
  exact ⟨Monitor.categorize_eq_of_dim rules app url title rt r hclear htext hfind,
         Monitor.categorize_eq_of_dim rules' app url title rt r hclear' htext hfind'⟩

/-- Witness for C1: with rules {edd → Productive, reddit.com → Procrastinating} on the
URL dimension, both insertion orders categorize url "www.reddit.com" as
Procrastinating, the category of the longer matching pattern. -/
theorem c1_longest_pattern_wins_witness :
    Monitor.c1Rules.Perm Monitor.c1RulesRev ∧
    Monitor.categorize_activity Monitor.c1Rules "chrome".toList "www.reddit.com".toList
        [] = ActivityCategory.PROCRASTINATING ∧
    Monitor.categorize_activity Monitor.c1RulesRev "chrome".toList "www.reddit.com".toList
        [] = ActivityCategory.PROCRASTINATING := by
  refine ⟨by decide, ?_⟩
  have h := c1_longest_pattern_wins Monitor.c1Rules Monitor.c1RulesRev (by decide)
    "chrome".toList "www.reddit.com".toList [] RuleType.URL
    ⟨"reddit.com".toList, ActivityCategory.PROCRASTINATING, RuleType.URL⟩
    (by decide) (by decide) (by decide) (by decide) (by decide) trivial
  exact h

/-- C2: in the longest-match categorizer, a URL-dimension match decides the category
regardless of any title or app matches, and when the URL dimension yields no match a
title-dimension match decides it regardless of app matches: dimensions are evaluated
URL, then title, then app, stopping at the first dimension with a match. -/
theorem c2_url_dimension_priority (rules : List Monitor.ActivityRule)
    (app url title : List Char) (r r' : Monitor.ActivityRule) :
    (url ≠ [] → Monitor.find_best_match rules url RuleType.URL = some r →
        Monitor.categorize_activity rules app url title = r.category) ∧
    ((url = [] ∨ Monitor.find_best_match rules url RuleType.URL = none) → title ≠ [] →
        Monitor.find_best_match rules title RuleType.TITLE = some r' →
        Monitor.categorize_activity rules app url title = r'.category) := by
  constructor
  · intro hu hfind
    exact Monitor.categorize_eq_of_dim rules app url title RuleType.URL r trivial hu hfind
  · intro hclear ht hfind
    exact Monitor.categorize_eq_of_dim rules app url title RuleType.TITLE r' hclear ht hfind

/-- Witness for C2: with a procrastinating URL rule for facebook.com and a productive
title rule matching the title, the URL match decides the category. -/
theorem c2_url_dimension_priority_witness :
    Monitor.find_best_match
      [⟨"facebook.com".toList, ActivityCategory.PROCRASTINATING, RuleType.URL⟩,
       ⟨"feed".toList, ActivityCategory.PRODUCTIVE, RuleType.TITLE⟩]
      "facebook.com/feed".toList RuleType.URL =
      some ⟨"facebook.com".toList, ActivityCategory.PROCRASTINATING, RuleType.URL⟩ ∧
    Monitor.categorize_activity
      [⟨"facebook.com".toList, ActivityCategory.PROCRASTINATING, RuleType.URL⟩,
       ⟨"feed".toList, ActivityCategory.PRODUCTIVE, RuleType.TITLE⟩]
      "chrome".toList "facebook.com/feed".toList "my feed".toList =
      ActivityCategory.PROCRASTINATING := by
  refine ⟨by decide, ?_⟩
  exact (c2_url_dimension_priority _ "chrome".toList "facebook.com/feed".toList
    "my feed".toList
    ⟨"facebook.com".toList, ActivityCategory.PROCRASTINATING, RuleType.URL⟩
    ⟨"feed".toList, ActivityCategory.PRODUCTIVE, RuleType.TITLE⟩).1 (by decide) (by decide)

namespace Pkg

/-- One dimension bucket triple of the packaged rules dictionary
(`activity_rules.productive` / `activity_rules.procrastination` in settings.json):
three pattern lists keyed "apps", "urls", "titles". -/
structure RuleSet where
  apps : List (List Char)
  urls : List (List Char)
  titles : List (List Char)
deriving DecidableEq, Repr

/-- The packaged categorizer rules: `self.rules` of
`src/aw_watcher_procrastination/activity_categorizer.py`, one bucket per category. -/
structure Rules where
  procrastination : RuleSet
  productive : RuleSet
deriving DecidableEq, Repr

/-- `ActivityCategorizer._matches_rules` of the packaged categorizer: the activity
matches when any pattern of the rule set is a case-insensitive substring of the
corresponding nonempty field, checking the app field, then url, then title. -/
def matches_rules (app url title : List Char) (rules : RuleSet) : Bool :=
  (decide (app ≠ []) && rules.apps.any (fun p => containsRun (lowerList p) (lowerList app)))
  || (decide (url ≠ []) && rules.urls.any (fun p => containsRun (lowerList p) (lowerList url)))
  || (decide (title ≠ []) && rules.titles.any (fun p => containsRun (lowerList p) (lowerList title)))

/-- `ActivityCategorizer.categorize_activity` of the packaged categorizer:
procrastination rules first, then productive rules, otherwise UNCLEAR. -/
def categorize_activity (rules : Rules) (app url title : List Char) : ActivityCategory :=
  if matches_rules app url title rules.procrastination then ActivityCategory.PROCRASTINATING
  else if matches_rules app url title rules.productive then ActivityCategory.PRODUCTIVE
  else ActivityCategory.UNCLEAR

/-- Update of one dimension list inside a category bucket by
`ActivityCategorizer.add_rule`: `if rule_type in self.rules[category_key]` then
append the value when absent; an unknown rule_type string leaves everything
unchanged without raising. -/
def rule_set_add (rs : RuleSet) (rule_type value : List Char) : RuleSet :=
  if rule_type = "apps".toList then
    (if value ∈ rs.apps then rs else { rs with apps := rs.apps ++ [value] })
  else if rule_type = "urls".toList then
    (if value ∈ rs.urls then rs else { rs with urls := rs.urls ++ [value] })
  else if rule_type = "titles".toList then
    (if value ∈ rs.titles then rs else { rs with titles := rs.titles ++ [value] })
  else rs

/-- `ActivityCategorizer.add_rule` of the packaged categorizer:
`category_key = "productive" if category == PRODUCTIVE else "procrastination"`,
then a guarded append into `self.rules[category_key][rule_type]`. -/
def add_rule (rules : Rules) (category : ActivityCategory) (rule_type value : List Char) :
    Rules :=
  if category = ActivityCategory.PRODUCTIVE then
    { rules with productive := rule_set_add rules.productive rule_type value }
  else
    { rules with procrastination := rule_set_add rules.procrastination rule_type value }

/-- Removal from one dimension list inside a category bucket by
`ActivityCategorizer.remove_rule` (`list.remove` drops the first occurrence);
an unknown rule_type string leaves everything unchanged without raising. -/
def rule_set_remove (rs : RuleSet) (rule_type value : List Char) : RuleSet :=
  if rule_type = "apps".toList then
    (if value ∈ rs.apps then { rs with apps := rs.apps.erase value } else rs)
  else if rule_type = "urls".toList then
    (if value ∈ rs.urls then { rs with urls := rs.urls.erase value } else rs)
  else if rule_type = "titles".toList then
    (if value ∈ rs.titles then { rs with titles := rs.titles.erase value } else rs)
  else rs

/-- `ActivityCategorizer.remove_rule` of the packaged categorizer. -/
def remove_rule (rules : Rules) (category : ActivityCategory) (rule_type value : List Char) :
    Rules :=
  if category = ActivityCategory.PRODUCTIVE then
    { rules with productive := rule_set_remove rules.productive rule_type value }
  else
    { rules with procrastination := rule_set_remove rules.procrastination rule_type value }

/-- The pattern list of dimension `rt` inside a rule set bucket. -/
def dim_list (rt : RuleType) (rs : RuleSet) : List (List Char) :=
  match rt with
  | RuleType.APP => rs.apps
  | RuleType.URL => rs.urls
  | RuleType.TITLE => rs.titles

/-- The field of the activity that dimension `rt` is matched against. -/
def dim_field (rt : RuleType) (app url title : List Char) : List Char :=
  match rt with
  | RuleType.APP => app
  | RuleType.URL => url
  | RuleType.TITLE => title

/-- The dimension key string of the packaged rules dictionary for dimension `rt`. -/
def dim_key (rt : RuleType) : List Char :=
  match rt with
  | RuleType.APP => "apps".toList
  | RuleType.URL => "urls".toList
  | RuleType.TITLE => "titles".toList

theorem matches_rules_of_dim (app url title : List Char) (rules : RuleSet)
    (rt : RuleType) (p : List Char)
    (hp : p ∈ dim_list rt rules)
    (hfield : dim_field rt app url title ≠ [])
    (hm : containsRun (lowerList p) (lowerList (dim_field rt app url title)) = true) :
    matches_rules app url title rules = true := by
  unfold matches_rules
  cases rt with
  | APP =>
    simp only [dim_list, dim_field] at hp hfield hm
    have : rules.apps.any (fun p => containsRun (lowerList p) (lowerList app)) = true :=
      List.any_eq_true.mpr ⟨p, hp, hm⟩
    simp [this, hfield]
  | URL =>
    simp only [dim_list, dim_field] at hp hfield hm
    have : rules.urls.any (fun p => containsRun (lowerList p) (lowerList url)) = true :=
      List.any_eq_true.mpr ⟨p, hp, hm⟩
    simp [this, hfield]
  | TITLE =>
    simp only [dim_list, dim_field] at hp hfield hm
    have : rules.titles.any (fun p => containsRun (lowerList p) (lowerList title)) = true :=
      List.any_eq_true.mpr ⟨p, hp, hm⟩
    simp [this, hfield]

end Pkg

/-- C10: in the packaged categorizer, the outcome category takes precedence over any
dimension priority or pattern length: whenever some procrastination pattern is a
case-insensitive substring of the corresponding nonempty field, categorize_activity
returns PROCRASTINATING, whatever the productive rules match. Within a rule set the
app field is tested first, then url, then title, which is observable only in the
shape of matches_rules, not in the returned category. -/
theorem c10_procrastination_category_precedence (rules : Pkg.Rules)
    (app url title : List Char) (rt : RuleType) (p : List Char)
    (hp : p ∈ Pkg.dim_list rt rules.procrastination)
    (hfield : Pkg.dim_field rt app url title ≠ [])
    (hm : containsRun (lowerList p) (lowerList (Pkg.dim_field rt app url title)) = true) :
    Pkg.categorize_activity rules app url title = ActivityCategory.PROCRASTINATING := by
  unfold Pkg.categorize_activity
  rw [if_pos (Pkg.matches_rules_of_dim app url title rules.procrastination rt p hp hfield hm)]

/-- Witness for C10: the procrastination URL pattern "facebook.com" beats the longer
productive title pattern "facebook.com/groups/leanprover": the activity is
categorized PROCRASTINATING. -/
theorem c10_procrastination_category_precedence_witness :
    Pkg.categorize_activity
      ⟨⟨[], ["facebook.com".toList], []⟩,
       ⟨[], [], ["facebook.com/groups/leanprover".toList]⟩⟩
      "chrome".toList "www.facebook.com/groups/leanprover".toList
      "facebook.com/groups/leanprover".toList = ActivityCategory.PROCRASTINATING :=
  c10_procrastination_category_precedence
    ⟨⟨[], ["facebook.com".toList], []⟩,
     ⟨[], [], ["facebook.com/groups/leanprover".toList]⟩⟩
    "chrome".toList "www.facebook.com/groups/leanprover".toList
    "facebook.com/groups/leanprover".toList RuleType.URL "facebook.com".toList
    (by decide) (by decide) (by decide)

namespace Pkg

/-- An ActivityWatch event as handled by
`src/aw_watcher_procrastination/event_processor.py`: a timezone-aware timestamp and
a duration (both exact microsecond counts, like Python timedelta), the raw `data`
payload mapping, and the attributes `_process_events` sets on the same object
(absent until processing). The wall-clock display strings (`time_tz`,
`time_ago_str`, `duration_str`) and `url_domain` (stdlib urlparse) are not
modelled; no claim depends on them. -/
structure AWEvent where
  timestamp : Int
  duration : Int
  data : List (List Char × List Char)
  bucket_id_short : Option (List Char) := none
  app : Option (List Char) := none
  url : Option (List Char) := none
  title : Option (List Char) := none
  category : Option ActivityCategory := none
deriving DecidableEq, Repr

/-- Python `event.data.get(key, "")` on the raw payload mapping. -/
def data_get (e : AWEvent) (k : List Char) : List Char :=
  match e.data.find? (fun kv => decide (kv.1 = k)) with
  | some kv => kv.2
  | none => []

/-- Scan of Python `str.replace(p, "")`: delete every non-overlapping occurrence
of `p`, scanning left to right. The fuel argument bounds the scan length so that
the recursion is structural; `removeRun` supplies fuel equal to the text length,
which always suffices because each step consumes at least one character. -/
def removeRunFuel (p : List Char) : Nat → List Char → List Char
  | _, [] => []
  | 0, t => t
  | Nat.succ n, c :: ts =>
    if p ≠ [] ∧ beginsWith p (c :: ts) = true then
      removeRunFuel p n (List.drop (p.length - 1) ts)
    else
      c :: removeRunFuel p n ts

/-- Python `str.replace(p, "")`. -/
def removeRun (p : List Char) (t : List Char) : List Char :=
  removeRunFuel p t.length t

/-- Python `s.split("_")[0]`: the run before the first underscore. -/
def takeBeforeUnderscore : List Char → List Char
  | [] => []
  | c :: cs => if c = '_' then [] else c :: takeBeforeUnderscore cs

/-- `EventProcessor._clean_url`: strip a leading http:// or https://, then a
leading www. -/
def clean_url (url : List Char) : List Char :=
  let u1 :=
    if beginsWith "http://".toList url then url.drop 7
    else if beginsWith "https://".toList url then url.drop 8
    else url
  if beginsWith "www.".toList u1 then u1.drop 4 else u1

/-- Body of the `EventProcessor._process_events` loop for one event: derive the
short bucket label, resolve app/url/title from the payload with the IDE override
(vscode/cursor buckets report language and file), clean a nonempty url, categorize
with the packaged categorizer, and store everything on the same event. -/
def process_event (rules : Rules) (bucket_id : List Char) (e : AWEvent) : AWEvent :=
  let short := takeBeforeUnderscore (removeRun "aw-watcher-".toList bucket_id)
  let app0 := data_get e "app".toList
  let url0 := data_get e "url".toList
  let title0 := data_get e "title".toList
  let isIDE := containsRun "vscode".toList short || containsRun "cursor".toList short
  let app := if isIDE then short else app0
  let title := if isIDE then data_get e "language".toList else title0
  let url1 := if isIDE then data_get e "file".toList else url0
  let url := if url1 ≠ [] then clean_url url1 else url1
  { e with
    bucket_id_short := some short
    app := some app
    url := some url
    title := some title
    category := some (categorize_activity rules app url title) }

/-- `EventProcessor._process_events`: process every event of a bucket in place and
return the same list. -/
def process_events (rules : Rules) (bucket_id : List Char) (events : List AWEvent) :
    List AWEvent :=
  events.map (process_event rules bucket_id)

/-- Modelled from the spec: `aw_transform.union_no_overlap` is an external library
call whose source is not part of this repository. Following section 4.4, events of
the two chronologically sorted lists are combined into one chronological sequence
and, when two events overlap in time, the earlier-starting event is truncated at
the later start so that no two output events overlap. -/
def union_no_overlap : List AWEvent → List AWEvent → List AWEvent
  | [], ys => ys
  | x :: xs, [] => x :: xs
  | x :: xs, y :: ys =>
    if x.timestamp ≤ y.timestamp then
      (if y.timestamp < x.timestamp + x.duration
        then { x with duration := y.timestamp - x.timestamp } else x)
        :: union_no_overlap xs (y :: ys)
    else
      (if x.timestamp < y.timestamp + y.duration
        then { y with duration := x.timestamp - y.timestamp } else y)
        :: union_no_overlap (x :: xs) ys
termination_by a b => a.length + b.length

/-- Modelled from the spec: `aw_transform.flood` is an external library call whose
source is not part of this repository. Following section 4.4, when the gap between
the end of one event and the start of the next is positive and smaller than the
flood threshold, the earlier event is extended to close the gap; events are not
reordered and no overlap is created. -/
def flood (threshold : Int) : List AWEvent → List AWEvent
  | [] => []
  | [x] => [x]
  | x :: y :: rest =>
    (if 0 < y.timestamp - (x.timestamp + x.duration)
        ∧ y.timestamp - (x.timestamp + x.duration) < threshold
      then { x with duration := y.timestamp - x.timestamp } else x)
      :: flood threshold (y :: rest)

/-- `EventProcessor.get_recent_activities` given the per-bucket events the client
returned: skip buckets whose id contains a skip substring, process each remaining
bucket, accumulate with union_no_overlap starting from None, and flood the result
(pulsetime 5 seconds). `None` is the spec section 4.4 non-error empty case: with no
contributing bucket the merge produces an empty timeline. The loop body is split
out as `gra_step` so the fold invariants can be stated about it. -/
def gra_step (rules : Rules) (skip : List (List Char)) :
    Option (List AWEvent) → (List Char × List AWEvent) → Option (List AWEvent) :=
  fun acc b =>
    if skip.any (fun s => containsRun s b.1) then acc
    else
      match acc with
      | none => some (process_events rules b.1 b.2)
      | some a => some (union_no_overlap a (process_events rules b.1 b.2))

def get_recent_activities (rules : Rules) (skip : List (List Char))
    (buckets : List (List Char × List AWEvent)) : Option (List AWEvent) :=
  (buckets.foldl (gra_step rules skip) none).map (flood 5000000)

end Pkg

namespace Pkg

/-- Python `timedelta.total_seconds()` on an exact microsecond span. -/
def total_seconds (d : Int) : ℚ := (d : ℚ) / 1000000

/-- The `total_duration` accumulator of `calculate_procrastination_percentage`:
the sum of all event durations, exact microsecond arithmetic. -/
def total_duration (events : List AWEvent) : Int :=
  (events.map AWEvent.duration).sum

/-- The per-category duration accumulators of `calculate_procrastination_percentage`. -/
def category_duration (c : ActivityCategory) (events : List AWEvent) : Int :=
  ((events.filter (fun e => decide (e.category = some c))).map AWEvent.duration).sum

/-- The aggregation part of `EventProcessor.calculate_procrastination_percentage`,
applied to the fetched timeline: `if not all_events` returns all zeros; otherwise
durations are summed per category over every event, all zeros are returned when the
total is not positive, and otherwise each category percentage is
`category_duration.total_seconds() / total_duration.total_seconds() * 100` and the
active percentage is `total_duration / time_window * 100` (exact timedelta
division). -/
def percentages_of_events (events : List AWEvent) (time_window : Int) : ℚ × ℚ × ℚ × ℚ :=
  if events = [] then (0, 0, 0, 0)
  else if total_duration events ≤ 0 then (0, 0, 0, 0)
  else
    (total_seconds (category_duration ActivityCategory.PROCRASTINATING events) /
        total_seconds (total_duration events) * 100,
     total_seconds (category_duration ActivityCategory.UNCLEAR events) /
        total_seconds (total_duration events) * 100,
     total_seconds (category_duration ActivityCategory.PRODUCTIVE events) /
        total_seconds (total_duration events) * 100,
     (total_duration events : ℚ) / (time_window : ℚ) * 100)

/-- `EventProcessor.calculate_procrastination_percentage`: fetch and merge the
recent events, then aggregate; a missing timeline gives all zeros. The rule reload
at the top of the method is a state effect on the categorizer, outside this model. -/
def calculate_procrastination_percentage (rules : Rules) (skip : List (List Char))
    (buckets : List (List Char × List AWEvent)) (time_window : Int) : ℚ × ℚ × ℚ × ℚ :=
  match get_recent_activities rules skip buckets with
  | none => (0, 0, 0, 0)
  | some evs => percentages_of_events evs time_window

/-- Every event carries one of the three categories, so the per-category duration
sums partition the total duration. -/
theorem category_partition (events : List AWEvent)
    (h : ∀ e ∈ events, e.category ≠ none) :
    category_duration ActivityCategory.PROCRASTINATING events +
      category_duration ActivityCategory.UNCLEAR events +
      category_duration ActivityCategory.PRODUCTIVE events = total_duration events := by
  induction events with
  | nil => rfl
  | cons e es ih =>
    have he := h e (List.mem_cons_self e es)
    have ih' := ih (fun x hx => h x (List.mem_cons_of_mem e hx))
    rcases ho : e.category with _ | c
    · exact absurd ho he
    · cases c <;>
        simp only [category_duration, total_duration, List.filter_cons, List.map_cons,
          List.sum_cons, ho, decide_eq_true_eq, Option.some.injEq, reduceCtorEq] <;>
        simp only [category_duration, total_duration] at ih' <;>
        split <;> simp_all <;> omega

end Pkg

/-- C6: whenever the total summed duration is positive, the three category
percentages are exactly 100 * categoryDuration / totalDuration, they sum to
exactly 100 (hence within the 0.01 tolerance), and when the total duration is zero
all percentages are 0. -/
theorem c6_percentage_invariant (events : List Pkg.AWEvent) (time_window : Int)
    (hall : ∀ e ∈ events, e.category ≠ none) :
    (0 < Pkg.total_duration events →
      Pkg.percentages_of_events events time_window =
        (100 * (Pkg.category_duration ActivityCategory.PROCRASTINATING events : ℚ) /
            (Pkg.total_duration events : ℚ),
         100 * (Pkg.category_duration ActivityCategory.UNCLEAR events : ℚ) /
            (Pkg.total_duration events : ℚ),
         100 * (Pkg.category_duration ActivityCategory.PRODUCTIVE events : ℚ) /
            (Pkg.total_duration events : ℚ),
         (Pkg.total_duration events : ℚ) / (time_window : ℚ) * 100) ∧
      (Pkg.percentages_of_events events time_window).1 +
        (Pkg.percentages_of_events events time_window).2.1 +
        (Pkg.percentages_of_events events time_window).2.2.1 = 100 ∧
      |(Pkg.percentages_of_events events time_window).1 +
        (Pkg.percentages_of_events events time_window).2.1 +
        (Pkg.percentages_of_events events time_window).2.2.1 - 100| ≤ 1 / 100) ∧
    (Pkg.total_duration events = 0 →
      Pkg.percentages_of_events events time_window = (0, 0, 0, 0)) := by
  constructor
  · intro htot
    have hne : events ≠ [] := by
      rintro rfl
      simp [Pkg.total_duration] at htot
    have hnle : ¬ Pkg.total_duration events ≤ 0 := not_le.mpr htot
    have htQ : (Pkg.total_duration events : ℚ) ≠ 0 :=
      Int.cast_ne_zero.mpr (Int.ne_of_gt htot)
    have heq : Pkg.percentages_of_events events time_window =
        (100 * (Pkg.category_duration ActivityCategory.PROCRASTINATING events : ℚ) /
            (Pkg.total_duration events : ℚ),
         100 * (Pkg.category_duration ActivityCategory.UNCLEAR events : ℚ) /
            (Pkg.total_duration events : ℚ),
         100 * (Pkg.category_duration ActivityCategory.PRODUCTIVE events : ℚ) /
            (Pkg.total_duration events : ℚ),
         (Pkg.total_duration events : ℚ) / (time_window : ℚ) * 100) := by
      unfold Pkg.percentages_of_events
      rw [if_neg hne, if_neg hnle]
      unfold Pkg.total_seconds
      simp only [Prod.mk.injEq]
      refine ⟨?_, ?_, ?_, trivial⟩ <;> (field_simp; ring)
    have hpart : (Pkg.category_duration ActivityCategory.PROCRASTINATING events : ℚ) +
        (Pkg.category_duration ActivityCategory.UNCLEAR events : ℚ) +
        (Pkg.category_duration ActivityCategory.PRODUCTIVE events : ℚ) =
        (Pkg.total_duration events : ℚ) := by
      exact_mod_cast Pkg.category_partition events hall
    have hsum : (Pkg.percentages_of_events events time_window).1 +
        (Pkg.percentages_of_events events time_window).2.1 +
        (Pkg.percentages_of_events events time_window).2.2.1 = 100 := by
      rw [heq]
      field_simp
      linear_combination (100 : ℚ) * hpart
    refine ⟨heq, hsum, ?_⟩
    rw [hsum]
    norm_num
  · intro h0
    rcases eq_or_ne events [] with rfl | hne
    · rfl
    · unfold Pkg.percentages_of_events
      rw [if_neg hne, if_pos (le_of_eq h0)]

/-- Event list from the repository test: 2 minutes productive, 1 minute
procrastinating, 1 minute unclear. -/
def c6Events : List Pkg.AWEvent :=
  [{ timestamp := 0, duration := 120000000, data := [],
     category := some ActivityCategory.PRODUCTIVE },
   { timestamp := 120000000, duration := 60000000, data := [],
     category := some ActivityCategory.PROCRASTINATING },
   { timestamp := 180000000, duration := 60000000, data := [],
     category := some ActivityCategory.UNCLEAR }]

/-- Witness for C6 on the 2m/1m/1m timeline over a 5 minute window. -/
theorem c6_percentage_invariant_witness :
    (∀ e ∈ c6Events, e.category ≠ none) ∧ 0 < Pkg.total_duration c6Events ∧
    (Pkg.percentages_of_events c6Events 300000000 =
        (100 * (Pkg.category_duration ActivityCategory.PROCRASTINATING c6Events : ℚ) /
            (Pkg.total_duration c6Events : ℚ),
         100 * (Pkg.category_duration ActivityCategory.UNCLEAR c6Events : ℚ) /
            (Pkg.total_duration c6Events : ℚ),
         100 * (Pkg.category_duration ActivityCategory.PRODUCTIVE c6Events : ℚ) /
            (Pkg.total_duration c6Events : ℚ),
         (Pkg.total_duration c6Events : ℚ) / ((300000000 : Int) : ℚ) * 100) ∧
      (Pkg.percentages_of_events c6Events 300000000).1 +
        (Pkg.percentages_of_events c6Events 300000000).2.1 +
        (Pkg.percentages_of_events c6Events 300000000).2.2.1 = 100 ∧
      |(Pkg.percentages_of_events c6Events 300000000).1 +
        (Pkg.percentages_of_events c6Events 300000000).2.1 +
        (Pkg.percentages_of_events c6Events 300000000).2.2.1 - 100| ≤ 1 / 100) :=
  ⟨by decide, by decide,
    (c6_percentage_invariant c6Events 300000000 (by decide)).1 (by decide)⟩

/-- The scenario timeline of claim C3: one 0.5 second event (below the claimed 1
second noise threshold) and one 60 second productive event. -/
def c3Events : List Pkg.AWEvent :=
  [{ timestamp := 0, duration := 500000, data := [],
     category := some ActivityCategory.UNCLEAR },
   { timestamp := 500000, duration := 60000000, data := [],
     category := some ActivityCategory.PRODUCTIVE }]

/-- Counterexample to C3: the aggregation of
`EventProcessor.calculate_procrastination_percentage` performs no minimum-duration
noise filtering, so on the scenario timeline the productive percentage is
6000/60.5 = 12000/121 (about 99.17), not the claimed 100. -/
theorem c3_counterexample :
    (Pkg.percentages_of_events c3Events 300000000).2.2.1 ≠ 100 := by
  have heval : Pkg.percentages_of_events c3Events 300000000 =
      (0, 100 / 121, 12000 / 121, 121 / 6) := by
    simp +decide only [Pkg.percentages_of_events, Pkg.total_duration,
      Pkg.category_duration, Pkg.total_seconds, c3Events, List.filter, List.map_cons,
      List.map_nil, List.sum_cons, List.sum_nil, if_false]
    norm_num
  rw [heval]
  norm_num

/-- C3 amended: the percentage computation applies no noise-threshold filtering;
every event, however short, contributes to both the per-category sums and the total
duration. On the scenario timeline the result is 0 percent procrastinating,
100/121 percent unclear, 12000/121 percent productive (total duration 60.5
seconds, not 60), and active percentage 121/6. -/
theorem c3_amended_no_noise_filtering :
    Pkg.percentages_of_events c3Events 300000000 = (0, 100 / 121, 12000 / 121, 121 / 6) ∧
    Pkg.total_duration c3Events = 60500000 := by
  refine ⟨?_, by decide⟩
  simp +decide only [Pkg.percentages_of_events, Pkg.total_duration,
    Pkg.category_duration, Pkg.total_seconds, c3Events, List.filter, List.map_cons,
    List.map_nil, List.sum_cons, List.sum_nil, if_false]
  norm_num

/-- The accumulator of the `get_recent_activities` fold stays `None` or an empty
list when every bucket is skipped or yields no events. -/
theorem gra_fold_trivial (rules : Pkg.Rules) (skip : List (List Char)) :
    ∀ (buckets : List (List Char × List Pkg.AWEvent))
      (acc : Option (List Pkg.AWEvent)),
      (∀ b ∈ buckets, skip.any (fun s => containsRun s b.1) = true ∨ b.2 = []) →
      (acc = none ∨ acc = some []) →
      (buckets.foldl (Pkg.gra_step rules skip) acc = none ∨
        buckets.foldl (Pkg.gra_step rules skip) acc = some []) := by
  intro buckets
  induction buckets with
  | nil => intro acc _ hacc; exact hacc
  | cons b bs ih =>
    intro acc h hacc
    rw [List.foldl_cons]
    refine ih (Pkg.gra_step rules skip acc b)
      (fun x hx => h x (List.mem_cons_of_mem b hx)) ?_
    by_cases hskip : skip.any (fun s => containsRun s b.1) = true
    · simp only [Pkg.gra_step, if_pos hskip]
      exact hacc
    · have hemp : b.2 = [] := by
        rcases h b (List.mem_cons_self b bs) with hs | he
        · exact absurd hs hskip
        · exact he
      rcases hacc with rfl | rfl
      · right
        show Pkg.gra_step rules skip none b = some []
        unfold Pkg.gra_step
        rw [if_neg hskip]
        simp [Pkg.process_events, hemp]
      · right
        show Pkg.gra_step rules skip (some []) b = some []
        unfold Pkg.gra_step
        rw [if_neg hskip]
        simp [Pkg.process_events, hemp, Pkg.union_no_overlap]

/-- C4: when no bucket contributes an event, because there are no buckets, every
bucket is skipped, or every bucket returns an empty list,
`calculate_procrastination_percentage` returns (0, 0, 0, 0); the function is total,
so no exception is possible in the model. -/
theorem c4_all_empty_all_zero (rules : Pkg.Rules) (skip : List (List Char))
    (buckets : List (List Char × List Pkg.AWEvent)) (time_window : Int)
    (h : ∀ b ∈ buckets, skip.any (fun s => containsRun s b.1) = true ∨ b.2 = []) :
    Pkg.calculate_procrastination_percentage rules skip buckets time_window =
      (0, 0, 0, 0) := by
  unfold Pkg.calculate_procrastination_percentage Pkg.get_recent_activities
  rcases gra_fold_trivial rules skip buckets none h (Or.inl rfl) with hn | he
  · rw [hn]; rfl
  · rw [he]; rfl

/-- Witness for C4: one bucket skipped through the afk skip pattern even though it
has an event, another bucket empty; the result is all zeros. -/
theorem c4_all_empty_all_zero_witness :
    (∀ b ∈ ([("aw-watcher-afk_host".toList,
              [({ timestamp := 0, duration := 1000000, data := [] } : Pkg.AWEvent)]),
             ("aw-watcher-window_host".toList, [])] :
          List (List Char × List Pkg.AWEvent)),
        (["afk_".toList].any (fun s => containsRun s b.1)) = true ∨ b.2 = []) ∧
    Pkg.calculate_procrastination_percentage ⟨⟨[], [], []⟩, ⟨[], [], []⟩⟩
      ["afk_".toList]
      [("aw-watcher-afk_host".toList,
        [({ timestamp := 0, duration := 1000000, data := [] } : Pkg.AWEvent)]),
       ("aw-watcher-window_host".toList, [])] 300000000 = (0, 0, 0, 0) :=
  ⟨by decide,
    c4_all_empty_all_zero ⟨⟨[], [], []⟩, ⟨[], [], []⟩⟩ ["afk_".toList] _ 300000000
      (by decide)⟩

namespace Pkg

theorem process_event_timestamp (rules : Rules) (bucket_id : List Char) (e : AWEvent) :
    (process_event rules bucket_id e).timestamp = e.timestamp := rfl

theorem process_event_duration (rules : Rules) (bucket_id : List Char) (e : AWEvent) :
    (process_event rules bucket_id e).duration = e.duration := rfl

theorem process_event_data (rules : Rules) (bucket_id : List Char) (e : AWEvent) :
    (process_event rules bucket_id e).data = e.data := rfl

theorem process_event_category_set (rules : Rules) (bucket_id : List Char) (e : AWEvent) :
    (process_event rules bucket_id e).category ≠ none := by
  simp [process_event]

/-- A raw window event as fetched from the client: no derived attribute set yet. -/
def c7Event : AWEvent :=
  { timestamp := 0, duration := 1000000,
    data := [("app".toList, "chrome".toList)] }

end Pkg

/-- Counterexample to C7: `_process_events` decorates the fetched event objects in
place, so the raw event is mutated: after processing, the very same event object
carries new attributes (bucket_id_short, app, url, title, category) and is no
longer equal to the raw event. -/
theorem c7_counterexample :
    Pkg.process_event ⟨⟨[], [], []⟩, ⟨[], [], []⟩⟩ "aw-watcher-window_host".toList
      Pkg.c7Event ≠ Pkg.c7Event := by decide

/-- C7 amended: normalization decorates the same event object in place rather than
building a separate derived value, but it never changes the timestamp, the
duration, or the raw fields mapping, and it always sets the category attribute. -/
theorem c7_amended_core_fields_preserved (rules : Pkg.Rules) (bucket_id : List Char)
    (e : Pkg.AWEvent) :
    (Pkg.process_event rules bucket_id e).timestamp = e.timestamp ∧
    (Pkg.process_event rules bucket_id e).duration = e.duration ∧
    (Pkg.process_event rules bucket_id e).data = e.data ∧
    (Pkg.process_event rules bucket_id e).category ≠ none :=
  ⟨Pkg.process_event_timestamp rules bucket_id e,
   Pkg.process_event_duration rules bucket_id e,
   Pkg.process_event_data rules bucket_id e,
   Pkg.process_event_category_set rules bucket_id e⟩

namespace Settings

/-- A JSON value as held by `Settings._settings` in
`src/aw_watcher_procrastination/settings.py`. -/
inductive JVal where
  | jnum : Int → JVal
  | jstr : List Char → JVal
  | jbool : Bool → JVal
  | jobj : List (List Char × JVal) → JVal

/-- Python `k in current` / `current[k]` on a JSON object (dict keys are unique, so
first match is the match). -/
def jlookup (fields : List (List Char × JVal)) (k : List Char) : Option JVal :=
  match fields.find? (fun kv => decide (kv.1 = k)) with
  | some kv => some kv.2
  | none => none

/-- `Settings.get` with the dotted key already split: `keys` holds the leading
segments walked by the loop and `final` the last segment. A missing key or a
non-dictionary along the path raises ValueError in the source (and indexing a
non-container raises TypeError); both are the error result here. -/
def sget : JVal → List (List Char) → List Char → Except Unit JVal
  | cur, [], final =>
    match cur with
    | JVal.jobj fs =>
      match jlookup fs final with
      | some v => Except.ok v
      | none => Except.error ()
    | _ => Except.error ()
  | cur, k :: ks, final =>
    match cur with
    | JVal.jobj fs =>
      match jlookup fs k with
      | none => Except.error ()
      | some (JVal.jobj fs') => sget (JVal.jobj fs') ks final
      | some _ => Except.error ()
    | _ => Except.error ()

end Settings

/-- Rules with one productive app pattern, used for claim C8. -/
def c8Rules : Pkg.Rules := ⟨⟨[], [], []⟩, ⟨["x".toList], [], []⟩⟩

/-- Counterexample to C8: `add_rule` with an invalid dimension key is silently
tolerated: the guard `if rule_type in self.rules[category_key]` simply skips the
update, no error is raised, and the rules are returned unchanged. -/
theorem c8_counterexample :
    Pkg.add_rule c8Rules ActivityCategory.PRODUCTIVE "bogus".toList
      "facebook.com".toList = c8Rules := by decide

/-- C8 amended: a settings lookup on a nonexistent path fails immediately with a
raised error, but `add_rule`/`remove_rule` with an invalid dimension key do not
raise: they leave the rule set unchanged. -/
theorem c8_amended_error_behavior :
    (∀ (rules : Pkg.Rules) (cat : ActivityCategory) (rt v : List Char),
        rt ≠ "apps".toList → rt ≠ "urls".toList → rt ≠ "titles".toList →
        Pkg.add_rule rules cat rt v = rules ∧ Pkg.remove_rule rules cat rt v = rules) ∧
    (∀ (fs : List (List Char × Settings.JVal)) (final : List Char),
        Settings.jlookup fs final = none →
        Settings.sget (Settings.JVal.jobj fs) [] final = Except.error ()) ∧
    (∀ (fs : List (List Char × Settings.JVal)) (k final : List Char)
        (ks : List (List Char)),
        Settings.jlookup fs k = none →
        Settings.sget (Settings.JVal.jobj fs) (k :: ks) final = Except.error ()) := by
  refine ⟨?_, ?_, ?_⟩
  · intro rules cat rt v h1 h2 h3
    constructor
    · cases hc : decide (cat = ActivityCategory.PRODUCTIVE) <;>
        simp_all [Pkg.add_rule, Pkg.rule_set_add]
    · cases hc : decide (cat = ActivityCategory.PRODUCTIVE) <;>
        simp_all [Pkg.remove_rule, Pkg.rule_set_remove]
  · intro fs final h
    simp [Settings.sget, h]
  · intro fs k final ks h
    simp [Settings.sget, h]

/-- Witness for C8 amended: a bogus dimension key leaves the concrete rules
unchanged, and lookups with a missing final or intermediate key error out. -/
theorem c8_amended_error_behavior_witness :
    (Pkg.add_rule c8Rules ActivityCategory.UNCLEAR "bogus".toList "y".toList = c8Rules ∧
      Pkg.remove_rule c8Rules ActivityCategory.UNCLEAR "bogus".toList "y".toList = c8Rules) ∧
    Settings.sget (Settings.JVal.jobj []) [] "missing".toList = Except.error () ∧
    Settings.sget (Settings.JVal.jobj []) ["thresholds".toList] "x".toList =
      Except.error () :=
  ⟨c8_amended_error_behavior.1 c8Rules ActivityCategory.UNCLEAR "bogus".toList
      "y".toList (by decide) (by decide) (by decide),
   c8_amended_error_behavior.2.1 [] "missing".toList rfl,
   c8_amended_error_behavior.2.2 [] "thresholds".toList "x".toList [] rfl⟩

namespace Pkg

/-- `category_key` selection of the packaged `add_rule`/`remove_rule`:
"productive" exactly for the PRODUCTIVE category, otherwise "procrastination". -/
def cat_bucket (rules : Rules) (c : ActivityCategory) : RuleSet :=
  if c = ActivityCategory.PRODUCTIVE then rules.productive else rules.procrastination

theorem rule_set_add_mem (rs : RuleSet) (rt : RuleType) (v : List Char) :
    v ∈ dim_list rt (rule_set_add rs (dim_key rt) v) := by
  cases rt with
  | APP =>
    by_cases hv : v ∈ rs.apps <;> simp_all +decide [rule_set_add, dim_list, dim_key]
  | URL =>
    by_cases hv : v ∈ rs.urls <;> simp_all +decide [rule_set_add, dim_list, dim_key]
  | TITLE =>
    by_cases hv : v ∈ rs.titles <;> simp_all +decide [rule_set_add, dim_list, dim_key]

theorem rule_set_add_mono (rs : RuleSet) (k w : List Char) (rt : RuleType)
    (v : List Char) (h : v ∈ dim_list rt rs) :
    v ∈ dim_list rt (rule_set_add rs k w) := by
  unfold rule_set_add
  split_ifs <;> cases rt <;> simp_all [dim_list]

theorem rule_set_add_idem (rs : RuleSet) (k v : List Char) :
    rule_set_add (rule_set_add rs k v) k v = rule_set_add rs k v := by
  unfold rule_set_add
  split_ifs <;> simp_all

theorem add_rule_mem (rules : Rules) (c : ActivityCategory) (rt : RuleType)
    (v : List Char) :
    v ∈ dim_list rt (cat_bucket (add_rule rules c (dim_key rt) v) c) := by
  cases c <;> simp [add_rule, cat_bucket] <;> exact rule_set_add_mem _ rt v

theorem add_rule_mono (rules : Rules) (c c' : ActivityCategory) (k w : List Char)
    (rt : RuleType) (v : List Char) (h : v ∈ dim_list rt (cat_bucket rules c')) :
    v ∈ dim_list rt (cat_bucket (add_rule rules c k w) c') := by
  cases c <;> cases c' <;>
    simp_all [add_rule, cat_bucket] <;>
    exact rule_set_add_mono _ k w rt v h

end Pkg

/-- Counterexample to C9: in the flat categorizer of the root
`activity_categorizer.py`, rules are keyed by the lowercased pattern alone, not by
(dimension, category): adding "foo" as a productive URL rule and then adding "foo"
as a procrastinating title rule leaves a single rule, and the productive URL rule
no longer matches anything. -/
theorem c9_counterexample :
    Monitor.rules_values
        (Monitor.add_rule
          (Monitor.add_rule [] "foo".toList ActivityCategory.PRODUCTIVE RuleType.URL)
          "foo".toList ActivityCategory.PROCRASTINATING RuleType.TITLE) =
      [⟨"foo".toList, ActivityCategory.PROCRASTINATING, RuleType.TITLE⟩] ∧
    Monitor.find_best_match
        (Monitor.rules_values
          (Monitor.add_rule
            (Monitor.add_rule [] "foo".toList ActivityCategory.PRODUCTIVE RuleType.URL)
            "foo".toList ActivityCategory.PROCRASTINATING RuleType.TITLE))
        "xfoo".toList RuleType.URL = none := by decide

/-- C9 amended: the packaged categorizer stores rules keyed by (category bucket,
dimension): adding the same pattern under two (category, dimension) buckets leaves
it present in both buckets, and re-adding a pattern into the same bucket is
idempotent, so no duplicate matches can arise. In the flat root categorizer,
however, the rules dictionary is keyed by the lowercased pattern alone and a second
add of the same pattern replaces the earlier rule (the counterexample). -/
theorem c9_amended_bucket_keying (rules : Pkg.Rules) (c1 c2 : ActivityCategory)
    (rt1 rt2 : RuleType) (v : List Char) :
    v ∈ Pkg.dim_list rt1
        (Pkg.cat_bucket
          (Pkg.add_rule (Pkg.add_rule rules c1 (Pkg.dim_key rt1) v) c2
            (Pkg.dim_key rt2) v) c1) ∧
    v ∈ Pkg.dim_list rt2
        (Pkg.cat_bucket
          (Pkg.add_rule (Pkg.add_rule rules c1 (Pkg.dim_key rt1) v) c2
            (Pkg.dim_key rt2) v) c2) ∧
    Pkg.add_rule (Pkg.add_rule rules c2 (Pkg.dim_key rt2) v) c2 (Pkg.dim_key rt2) v =
      Pkg.add_rule rules c2 (Pkg.dim_key rt2) v := by
  refine ⟨?_, ?_, ?_⟩
  · exact Pkg.add_rule_mono _ c2 c1 (Pkg.dim_key rt2) v rt1 v
      (Pkg.add_rule_mem rules c1 rt1 v)
  · exact Pkg.add_rule_mem _ c2 rt2 v
  · cases c2 <;> simp [Pkg.add_rule] <;> exact Pkg.rule_set_add_idem _ _ v

namespace Pkg

/-- The claimed timeline invariant: every event ends at or before the next starts. -/
def no_overlap : List AWEvent → Bool
  | [] => true
  | [_] => true
  | a :: b :: rest =>
      decide (a.timestamp + a.duration ≤ b.timestamp) && no_overlap (b :: rest)

/-- All durations in the list are nonnegative (RawEvent durations are nonnegative
time spans). -/
def durs_nonneg (l : List AWEvent) : Prop := ∀ e ∈ l, 0 ≤ e.duration

instance (l : List AWEvent) : Decidable (durs_nonneg l) := by
  unfold durs_nonneg; infer_instance

/-- `c` is a lower bound on the start of the first event, if any. -/
def startsLB (c : Int) : List AWEvent → Prop
  | [] => True
  | x :: _ => c ≤ x.timestamp

theorem startsLB_mono {c c' : Int} (h : c' ≤ c) :
    ∀ {l : List AWEvent}, startsLB c l → startsLB c' l := by
  intro l
  cases l with
  | nil => intro; trivial
  | cons x xs => intro hx; exact le_trans h hx

theorem no_overlap_cons (a : AWEvent) (l : List AWEvent) :
    no_overlap (a :: l) = true ↔
      startsLB (a.timestamp + a.duration) l ∧ no_overlap l = true := by
  cases l with
  | nil => simp [no_overlap, startsLB]
  | cons b bs => simp [no_overlap, startsLB]

theorem union_nil_left (ys : List AWEvent) : union_no_overlap [] ys = ys := by
  simp [union_no_overlap]

theorem union_nil_right (x : AWEvent) (xs : List AWEvent) :
    union_no_overlap (x :: xs) [] = x :: xs := by
  simp [union_no_overlap]

theorem union_cons_le (x y : AWEvent) (xs ys : List AWEvent)
    (h : x.timestamp ≤ y.timestamp) :
    union_no_overlap (x :: xs) (y :: ys) =
      (if y.timestamp < x.timestamp + x.duration
        then { x with duration := y.timestamp - x.timestamp } else x)
        :: union_no_overlap xs (y :: ys) := by
  rw [union_no_overlap]
  rw [if_pos h]

theorem union_cons_gt (x y : AWEvent) (xs ys : List AWEvent)
    (h : ¬ x.timestamp ≤ y.timestamp) :
    union_no_overlap (x :: xs) (y :: ys) =
      (if x.timestamp < y.timestamp + y.duration
        then { y with duration := x.timestamp - y.timestamp } else y)
        :: union_no_overlap (x :: xs) ys := by
  rw [union_no_overlap]
  rw [if_neg h]

end Pkg

namespace Pkg

/-- Main invariant of the modelled merge: on chronologically sorted,
internally non-overlapping inputs with nonnegative durations, the union is
non-overlapping, keeps durations nonnegative, and starts no earlier than both
inputs. -/
theorem union_no_overlap_inv :
    ∀ (n : Nat) (xs ys : List AWEvent), xs.length + ys.length ≤ n →
      no_overlap xs = true → no_overlap ys = true →
      durs_nonneg xs → durs_nonneg ys →
      no_overlap (union_no_overlap xs ys) = true ∧
        durs_nonneg (union_no_overlap xs ys) ∧
        ∀ c : Int, startsLB c xs → startsLB c ys →
          startsLB c (union_no_overlap xs ys) := by
  intro n
  induction n with
  | zero =>
    intro xs ys hlen hx hy hdx hdy
    have hxe : xs = [] := List.length_eq_zero.mp (by omega)
    have hye : ys = [] := List.length_eq_zero.mp (by omega)
    subst hxe; subst hye
    rw [union_nil_left]
    exact ⟨rfl, ⟨fun e he => absurd he (List.not_mem_nil e), fun c _ h2 => h2⟩⟩
  | succ n ih =>
    intro xs ys hlen hx hy hdx hdy
    cases xs with
    | nil =>
      rw [union_nil_left]
      exact ⟨hy, hdy, fun c _ h2 => h2⟩
    | cons x xs' =>
      cases ys with
      | nil =>
        rw [union_nil_right]
        exact ⟨hx, hdx, fun c h1 _ => h1⟩
      | cons y ys' =>
        have hxparts := (no_overlap_cons x xs').mp hx
        have hyparts := (no_overlap_cons y ys').mp hy
        have hdx' : durs_nonneg xs' := fun e he => hdx e (List.mem_cons_of_mem x he)
        have hdy' : durs_nonneg ys' := fun e he => hdy e (List.mem_cons_of_mem y he)
        by_cases hxy : x.timestamp ≤ y.timestamp
        · rw [union_cons_le x y xs' ys' hxy]
          have hih := ih xs' (y :: ys')
            (by simp only [List.length_cons] at hlen ⊢; omega)
            hxparts.2 hy hdx' hdy
          by_cases hov : y.timestamp < x.timestamp + x.duration
          · rw [if_pos hov]
            refine ⟨?_, ?_, ?_⟩
            · refine (no_overlap_cons _ _).mpr ⟨?_, hih.1⟩
              have hend : ({ x with duration := y.timestamp - x.timestamp } :
                  AWEvent).timestamp +
                  ({ x with duration := y.timestamp - x.timestamp } :
                    AWEvent).duration = y.timestamp := by
                simp
              rw [hend]
              refine hih.2.2 y.timestamp ?_ ?_
              · exact startsLB_mono (le_of_lt hov) hxparts.1
              · exact le_refl _
            · intro e he
              rcases List.mem_cons.mp he with rfl | he'
              · simp; omega
              · exact hih.2.1 e he'
            · intro c h1 h2
              exact h1
          · rw [if_neg hov]
            refine ⟨?_, ?_, ?_⟩
            · refine (no_overlap_cons _ _).mpr ⟨?_, hih.1⟩
              refine hih.2.2 (x.timestamp + x.duration) hxparts.1 ?_
              exact le_of_not_lt hov
            · intro e he
              rcases List.mem_cons.mp he with rfl | he'
              · exact hdx e (List.mem_cons_self e xs')
              · exact hih.2.1 e he'
            · intro c h1 h2
              exact h1
        · rw [union_cons_gt x y xs' ys' hxy]
          have hih := ih (x :: xs') ys'
            (by simp only [List.length_cons] at hlen ⊢; omega)
            hx hyparts.2 hdx hdy'
          have hyx : y.timestamp ≤ x.timestamp := le_of_lt (lt_of_not_ge hxy)
          by_cases hov : x.timestamp < y.timestamp + y.duration
          · rw [if_pos hov]
            refine ⟨?_, ?_, ?_⟩
            · refine (no_overlap_cons _ _).mpr ⟨?_, hih.1⟩
              have hend : ({ y with duration := x.timestamp - y.timestamp } :
                  AWEvent).timestamp +
                  ({ y with duration := x.timestamp - y.timestamp } :
                    AWEvent).duration = x.timestamp := by
                simp
              rw [hend]
              refine hih.2.2 x.timestamp ?_ ?_
              · exact le_refl _
              · exact startsLB_mono (le_of_lt hov) hyparts.1
            · intro e he
              rcases List.mem_cons.mp he with rfl | he'
              · simp; omega
              · exact hih.2.1 e he'
            · intro c h1 h2
              exact h2
          · rw [if_neg hov]
            refine ⟨?_, ?_, ?_⟩
            · refine (no_overlap_cons _ _).mpr ⟨?_, hih.1⟩
              refine hih.2.2 (y.timestamp + y.duration) ?_ hyparts.1
              exact le_of_not_lt hov
            · intro e he
              rcases List.mem_cons.mp he with rfl | he'
              · exact hdy e (List.mem_cons_self e ys')
              · exact hih.2.1 e he'
            · intro c h1 h2
              exact h2

end Pkg

namespace Pkg

theorem flood_startsLB (t c : Int) :
    ∀ (l : List AWEvent), startsLB c l → startsLB c (flood t l) := by
  intro l
  cases l with
  | nil => intro h; exact h
  | cons y rest =>
    cases rest with
    | nil => intro h; exact h
    | cons z rest' =>
      intro h
      simp only [flood]
      split <;> exact h

theorem flood_no_overlap (t : Int) :
    ∀ (l : List AWEvent), no_overlap l = true → no_overlap (flood t l) = true := by
  intro l
  induction l with
  | nil => intro h; exact h
  | cons y rest ih =>
    cases rest with
    | nil => intro h; exact h
    | cons z rest' =>
      intro h
      have hparts := (no_overlap_cons y (z :: rest')).mp h
      have hyz : y.timestamp + y.duration ≤ z.timestamp := hparts.1
      simp only [flood]
      by_cases hgap : 0 < z.timestamp - (y.timestamp + y.duration)
          ∧ z.timestamp - (y.timestamp + y.duration) < t
      · rw [if_pos hgap]
        refine (no_overlap_cons _ _).mpr ⟨?_, ih hparts.2⟩
        have hend : ({ y with duration := z.timestamp - y.timestamp } :
            AWEvent).timestamp +
            ({ y with duration := z.timestamp - y.timestamp } : AWEvent).duration =
            z.timestamp := by simp
        rw [hend]
        exact flood_startsLB t z.timestamp (z :: rest') (le_refl _)
      · rw [if_neg hgap]
        refine (no_overlap_cons _ _).mpr ⟨?_, ih hparts.2⟩
        exact flood_startsLB t _ (z :: rest') hyz

theorem process_events_no_overlap (rules : Rules) (bid : List Char) :
    ∀ (evs : List AWEvent),
      no_overlap (process_events rules bid evs) = no_overlap evs := by
  intro evs
  induction evs with
  | nil => rfl
  | cons a rest ih =>
    cases rest with
    | nil => rfl
    | cons b rest' =>
      simp only [process_events, List.map_cons] at ih ⊢
      simp only [no_overlap, process_event_timestamp, process_event_duration]
      rw [ih]

theorem process_events_durs (rules : Rules) (bid : List Char) (evs : List AWEvent)
    (h : durs_nonneg evs) : durs_nonneg (process_events rules bid evs) := by
  intro e he
  rcases List.mem_map.mp he with ⟨x, hx, rfl⟩
  rw [process_event_duration]
  exact h x hx

/-- Invariant of the `get_recent_activities` fold: the accumulator is `None` or a
non-overlapping list with nonnegative durations. -/
theorem gra_fold_no_overlap (rules : Rules) (skip : List (List Char)) :
    ∀ (buckets : List (List Char × List AWEvent)) (acc : Option (List AWEvent)),
      (∀ b ∈ buckets, no_overlap b.2 = true ∧ durs_nonneg b.2) →
      (acc = none ∨ ∃ a, acc = some a ∧ no_overlap a = true ∧ durs_nonneg a) →
      (buckets.foldl (gra_step rules skip) acc = none ∨
        ∃ a, buckets.foldl (gra_step rules skip) acc = some a ∧
          no_overlap a = true ∧ durs_nonneg a) := by
  intro buckets
  induction buckets with
  | nil => intro acc _ hacc; exact hacc
  | cons b bs ih =>
    intro acc h hacc
    rw [List.foldl_cons]
    refine ih (gra_step rules skip acc b)
      (fun x hx => h x (List.mem_cons_of_mem b hx)) ?_
    have hb := h b (List.mem_cons_self b bs)
    by_cases hskip : skip.any (fun s => containsRun s b.1) = true
    · simp only [gra_step, if_pos hskip]
      exact hacc
    · rcases hacc with rfl | ⟨a, rfl, hna, hda⟩
      · right
        refine ⟨process_events rules b.1 b.2, ?_, ?_, ?_⟩
        · show gra_step rules skip none b = _
          unfold gra_step
          rw [if_neg hskip]
        · rw [process_events_no_overlap]
          exact hb.1
        · exact process_events_durs rules b.1 b.2 hb.2
      · right
        have hun := union_no_overlap_inv
          (a.length + (process_events rules b.1 b.2).length) a
          (process_events rules b.1 b.2) (le_refl _) hna
          (by rw [process_events_no_overlap]; exact hb.1) hda
          (process_events_durs rules b.1 b.2 hb.2)
        refine ⟨union_no_overlap a (process_events rules b.1 b.2), ?_, hun.1, hun.2.1⟩
        show gra_step rules skip (some a) b = _
        unfold gra_step
        rw [if_neg hskip]

end Pkg

/-- A single bucket whose two events are chronologically sorted but overlap:
exactly the shape of the repository test `test_event_processing_with_overlaps`. -/
def c5Buckets : List (List Char × List Pkg.AWEvent) :=
  [("aw-watcher-window_host".toList,
    [{ timestamp := 0, duration := 2000000, data := [] },
     { timestamp := 1000000, duration := 2000000, data := [] }])]

/-- Counterexample to C5: a single bucket whose event list is chronologically
sorted but internally overlapping passes through union_no_overlap untouched (only
cross-bucket overlaps are resolved) and flood closes gaps without removing
overlaps, so the output timeline contains two overlapping events. The repository
test `test_event_processing_with_overlaps` asserts exactly this surviving overlap. -/
theorem c5_counterexample :
    (Pkg.get_recent_activities ⟨⟨[], [], []⟩, ⟨[], [], []⟩⟩ [] c5Buckets).map
      Pkg.no_overlap = some false := by decide

/-- A single bucket with sorted, non-overlapping events (1 second gap). -/
def c5GoodBuckets : List (List Char × List Pkg.AWEvent) :=
  [("aw-watcher-window_host".toList,
    [{ timestamp := 0, duration := 1000000, data := [] },
     { timestamp := 2000000, duration := 1000000, data := [] }])]

/-- C5 amended: when every bucket fed into the merge-then-flood pipeline is
chronologically sorted and internally non-overlapping with nonnegative durations,
the resulting timeline contains no two overlapping events: every output event ends
at or before the next starts. Without the internal non-overlap premise the claim
fails (see the counterexample: within-bucket overlaps survive). -/
theorem c5_amended_no_overlap_invariant (rules : Pkg.Rules) (skip : List (List Char))
    (buckets : List (List Char × List Pkg.AWEvent)) (out : List Pkg.AWEvent)
    (h : ∀ b ∈ buckets, Pkg.no_overlap b.2 = true ∧ Pkg.durs_nonneg b.2)
    (hout : Pkg.get_recent_activities rules skip buckets = some out) :
    Pkg.no_overlap out = true := by
  unfold Pkg.get_recent_activities at hout
  rcases Pkg.gra_fold_no_overlap rules skip buckets none h (Or.inl rfl) with hn | ⟨a, ha, hna, _⟩
  · rw [hn] at hout
    exact absurd hout (by simp)
  · rw [ha] at hout
    simp only [Option.map_some'] at hout
    rw [← Option.some.inj hout]
    exact Pkg.flood_no_overlap 5000000 a hna

/-- Witness for C5 amended: the non-overlapping single bucket yields a defined
timeline that satisfies the invariant. -/
theorem c5_amended_no_overlap_invariant_witness :
    (∀ b ∈ c5GoodBuckets, Pkg.no_overlap b.2 = true ∧ Pkg.durs_nonneg b.2) ∧
    (Pkg.get_recent_activities ⟨⟨[], [], []⟩, ⟨[], [], []⟩⟩ [] c5GoodBuckets).isSome =
      true ∧
    Pkg.no_overlap
      ((Pkg.get_recent_activities ⟨⟨[], [], []⟩, ⟨[], [], []⟩⟩ [] c5GoodBuckets).getD
        []) = true := by
  refine ⟨by decide, by decide, ?_⟩
  cases hg : Pkg.get_recent_activities ⟨⟨[], [], []⟩, ⟨[], [], []⟩⟩ [] c5GoodBuckets with
  | none => rfl
  | some out =>
    simp only [Option.getD_some]
    exact c5_amended_no_overlap_invariant ⟨⟨[], [], []⟩, ⟨[], [], []⟩⟩ [] c5GoodBuckets
      out (by decide) hg
